import Mathlib

/-!
Verification of the conversation-export core: model inference, branch
reconstruction, document rendering, file naming and the batch export
orchestrator, shallowly embedded from the JavaScript sources
(src/content.js and the conversation-manager page script).

Conventions of the embedding:
* JavaScript nullable fields become Option; JS truthiness of a nullable
  string (non-null and non-empty) is strTruthy.
* Date values (the result of new Date(...) on the conversation timestamps)
  are modelled as natural numbers (milliseconds since the epoch); locale
  rendering of dates (toLocaleString) is environment-dependent and is
  modelled by the decimal rendering of that number.
* The JS Map built by getCurrentBranch is modelled as an association list
  with latest-insertion-wins lookup, exactly as Map.set overwrites.
* Unbounded while loops are modelled with explicit fuel; termination
  claims become fuel-independence statements.
-/

/-- One content block of a message; only its optional text field is read
by the exporters. -/
structure Block where
  text : Option String
deriving DecidableEq, Repr

/-- A chat message as consumed by the exporters (src/content.js). -/
structure Msg where
  uuid : String
  parent_message_uuid : Option String
  sender : String
  content : Option (List Block)
  text : Option String
  created_at : Option String
deriving DecidableEq, Repr

/-- A full conversation record as fetched from the data source. -/
structure ConvRecord where
  uuid : String
  name : Option String
  summary : Option String
  model : Option String
  created_at : Nat
  updated_at : Nat
  chat_messages : Option (List Msg)
  current_leaf_message_uuid : Option String
deriving DecidableEq, Repr

/-- A conversation summary row (the manager page's filteredConversations). -/
structure Conv where
  uuid : String
  name : String
deriving DecidableEq, Repr

/-- JS truthiness of a nullable string: non-null and non-empty. -/
def strTruthy : Option String → Bool
  | none => false
  | some s => s ≠ ""

/-- JS template-literal rendering of a nullable string (null prints as
the four characters null). -/
def optStrJS : Option String → String
  | none => "null"
  | some s => s

/-- One entry of the default-model timeline: the epoch-millisecond value
of the date literal and the model identifier. -/
structure TimelineEntry where
  date : Nat
  model : String
deriving DecidableEq, Repr

instance : Inhabited TimelineEntry := ⟨⟨0, ""⟩⟩

/-- DEFAULT_MODEL_TIMELINE from src/content.js, with each new Date literal
replaced by its epoch-millisecond value. -/
def DEFAULT_MODEL_TIMELINE : List TimelineEntry :=
  [ ⟨1704067200000, "claude-3-sonnet-20240229"⟩,
    ⟨1718841600000, "claude-3-5-sonnet-20240620"⟩,
    ⟨1729555200000, "claude-3-5-sonnet-20241022"⟩,
    ⟨1740355200000, "claude-3-7-sonnet-20250219"⟩,
    ⟨1747872000000, "claude-sonnet-4-20250514"⟩,
    ⟨1759104000000, "claude-sonnet-4-5-20250929"⟩,
    ⟨1761955200000, "claude-opus-4-5-20251101"⟩ ]

/-- The backward scan of inferModel: walk the given (reversed) timeline and
return the first entry whose date is at most the conversation date. -/
def inferModelScan : List TimelineEntry → Nat → Option String
  | [], _ => none
  | e :: rest, d => if d ≥ e.date then some e.model else inferModelScan rest d

/-- inferModel from src/content.js: a truthy model field is returned
unchanged; otherwise the timeline is walked from the most recent entry
backward and the first entry whose date is at most created_at wins; if
created_at precedes every entry the first timeline entry is used. -/
def inferModel (conversation : ConvRecord) : String :=
  if strTruthy conversation.model then conversation.model.getD ""
  else
    match inferModelScan DEFAULT_MODEL_TIMELINE.reverse conversation.created_at with
    | some m => m
    | none => (DEFAULT_MODEL_TIMELINE[0]!).model

/-- Modelled from the spec (section 4.1): return a truthy model unchanged,
otherwise the modelId of the latest timeline entry whose effective-date is
at most created_at, and the earliest entry's modelId when created_at
precedes every entry. -/
def inferModelSpec (c : ConvRecord) : String :=
  if strTruthy c.model then c.model.getD ""
  else
    match (DEFAULT_MODEL_TIMELINE.filter (fun e => e.date ≤ c.created_at)).getLast? with
    | some e => e.model
    | none =>
      match DEFAULT_MODEL_TIMELINE.head? with
      | some e => e.model
      | none => ""

/-- C2: inferModel returns a truthy model unchanged; otherwise it returns
the modelId of the latest timeline entry whose effective-date is at most
created_at (an inclusive lower bound, so exact equality selects that
entry), falling back to the earliest entry's modelId when created_at
precedes the whole timeline.  It is a total String-valued function, so it
never fails and never returns null. -/
theorem inferModel_eq_spec (c : ConvRecord) : inferModel c = inferModelSpec c := by
  unfold inferModel inferModelSpec
  by_cases hm : strTruthy c.model
  · simp [hm]
  · simp only [hm, if_neg, Bool.false_eq_true, not_false_iff]
    simp only [DEFAULT_MODEL_TIMELINE, List.reverse_cons, List.reverse_nil]
    by_cases h7 : (1761955200000 : Nat) ≤ c.created_at
    · simp [inferModelScan, List.filter, h7, Nat.le_of_lt, ge_iff_le,
        show (1704067200000 : Nat) ≤ c.created_at by omega,
        show (1718841600000 : Nat) ≤ c.created_at by omega,
        show (1729555200000 : Nat) ≤ c.created_at by omega,
        show (1740355200000 : Nat) ≤ c.created_at by omega,
        show (1747872000000 : Nat) ≤ c.created_at by omega,
        show (1759104000000 : Nat) ≤ c.created_at by omega]
    · by_cases h6 : (1759104000000 : Nat) ≤ c.created_at
      · simp [inferModelScan, List.filter, h6, h7, ge_iff_le,
          show (1704067200000 : Nat) ≤ c.created_at by omega,
          show (1718841600000 : Nat) ≤ c.created_at by omega,
          show (1729555200000 : Nat) ≤ c.created_at by omega,
          show (1740355200000 : Nat) ≤ c.created_at by omega,
          show (1747872000000 : Nat) ≤ c.created_at by omega]
      · by_cases h5 : (1747872000000 : Nat) ≤ c.created_at
        · simp [inferModelScan, List.filter, h5, h6, h7, ge_iff_le,
            show (1704067200000 : Nat) ≤ c.created_at by omega,
            show (1718841600000 : Nat) ≤ c.created_at by omega,
            show (1729555200000 : Nat) ≤ c.created_at by omega,
            show (1740355200000 : Nat) ≤ c.created_at by omega]
        · by_cases h4 : (1740355200000 : Nat) ≤ c.created_at
          · simp [inferModelScan, List.filter, h4, h5, h6, h7, ge_iff_le,
              show (1704067200000 : Nat) ≤ c.created_at by omega,
              show (1718841600000 : Nat) ≤ c.created_at by omega,
              show (1729555200000 : Nat) ≤ c.created_at by omega]
          · by_cases h3 : (1729555200000 : Nat) ≤ c.created_at
            · simp [inferModelScan, List.filter, h3, h4, h5, h6, h7, ge_iff_le,
                show (1704067200000 : Nat) ≤ c.created_at by omega,
                show (1718841600000 : Nat) ≤ c.created_at by omega]
            · by_cases h2 : (1718841600000 : Nat) ≤ c.created_at
              · simp [inferModelScan, List.filter, h2, h3, h4, h5, h6, h7, ge_iff_le,
                  show (1704067200000 : Nat) ≤ c.created_at by omega]
              · by_cases h1 : (1704067200000 : Nat) ≤ c.created_at
                · simp [inferModelScan, List.filter, h1, h2, h3, h4, h5, h6, h7, ge_iff_le]
                · simp [inferModelScan, List.filter, h1, h2, h3, h4, h5, h6, h7, ge_iff_le]

/-- The uuid-to-message Map built by getCurrentBranch: forEach over the
messages inserting with Map.set, where a later insertion for the same key
overwrites an earlier one.  The association list keeps later insertions in
front so that lookup sees the last write. -/
def buildMap (msgs : List Msg) : List (String × Msg) :=
  msgs.foldl (fun acc msg => (msg.uuid, msg) :: acc) []

/-- Map.get on the modelled map (none when the key is missing). -/
def mapFind (m : List (String × Msg)) (u : String) : Option Msg :=
  (m.find? (fun e => e.1 == u)).map (fun e => e.2)

/-- Map.has applied to a nullable key: a null key is never present. -/
def mapHas (m : List (String × Msg)) : Option String → Bool
  | none => false
  | some u => (mapFind m u).isSome

/-- The while loop of getCurrentBranch, with explicit fuel.  Each
iteration requires the current uuid to be truthy and present in the map,
prepends the resolved message, moves to its parent uuid and breaks early
when that parent is not a key of the map. -/
def jsWalk (m : List (String × Msg)) : Nat → Option String → List Msg → List Msg
  | 0, _, branch => branch
  | fuel + 1, currentUuid, branch =>
    match currentUuid with
    | none => branch
    | some u =>
      if u = "" then branch
      else
        match mapFind m u with
        | none => branch
        | some message =>
          if mapHas m message.parent_message_uuid then
            jsWalk m fuel message.parent_message_uuid (message :: branch)
          else message :: branch

/-- getCurrentBranch from src/content.js at a given fuel: return [] when
chat_messages is null or the current-leaf uuid is falsy, otherwise walk
the parent chain from the leaf. -/
def getCurrentBranchFuel (data : ConvRecord) (fuel : Nat) : List Msg :=
  match data.chat_messages, data.current_leaf_message_uuid with
  | none, _ => []
  | some _, none => []
  | some msgs, some leaf =>
    if leaf = "" then []
    else jsWalk (buildMap msgs) fuel (some leaf) []

/-- getCurrentBranch with the default fuel, which suffices whenever the
parent chain is acyclic (one step per message plus one slack step). -/
def getCurrentBranch (data : ConvRecord) : List Msg :=
  getCurrentBranchFuel data ((data.chat_messages.getD []).length + 1)

/-- The root-to-leaf chain from a uuid, stopping when the parent uuid is
absent, empty (JS-falsy) or unresolvable; the stopping message is
included in front.  This is the functional reading of the walk. -/
def specChainT (m : List (String × Msg)) : Nat → String → List Msg
  | 0, _ => []
  | fuel + 1, u =>
    match mapFind m u with
    | none => []
    | some msg =>
      match msg.parent_message_uuid with
      | none => [msg]
      | some p =>
        if p = "" then [msg]
        else
          match mapFind m p with
          | none => [msg]
          | some _ => specChainT m fuel p ++ [msg]

/-- Modelled from the spec (section 4.2, literally): starting at the
current-leaf identifier, prepend each resolved message and move to its
parent identifier, stopping only when the parent identifier is absent or
does not resolve in the lookup; no emptiness test is applied to
identifiers. -/
def specChainLit (m : List (String × Msg)) : Nat → String → List Msg
  | 0, _ => []
  | fuel + 1, u =>
    match mapFind m u with
    | none => []
    | some msg =>
      match msg.parent_message_uuid with
      | none => [msg]
      | some p =>
        match mapFind m p with
        | none => [msg]
        | some _ => specChainLit m fuel p ++ [msg]

/-- Modelled from the spec (section 4.2, literally): reconstructBranch
returns the empty sequence when the message collection is empty or the
current-leaf identifier does not resolve, otherwise the chain computed by
specChainLit. -/
def reconstructBranchLit (data : ConvRecord) : List Msg :=
  match data.chat_messages, data.current_leaf_message_uuid with
  | none, _ => []
  | some _, none => []
  | some msgs, some leaf =>
    if (mapFind (buildMap msgs) leaf).isSome then
      specChainLit (buildMap msgs) (msgs.length + 1) leaf
    else []

/-- One step of the walk on uuids: the parent uuid of the resolved
message, provided that parent is truthy and itself resolvable. -/
def pnext (m : List (String × Msg)) (u : String) : Option String :=
  match mapFind m u with
  | none => none
  | some message =>
    match message.parent_message_uuid with
    | none => none
    | some p => if p = "" then none else if (mapFind m p).isSome then some p else none

/-- Iterate pnext, stepping first. -/
def iterP (m : List (String × Msg)) : Nat → Option String → Option String
  | 0, o => o
  | k + 1, o => iterP m k (o.bind (pnext m))

/-- The keys of the modelled map. -/
def keysOf (m : List (String × Msg)) : List String := m.map Prod.fst

/-- Acyclicity of the parent pointers: no uuid of the map returns to
itself under iterated parent steps (by the pigeonhole principle a cycle
of any length yields one of length at most the map size, so the bounded
quantifier loses no generality and keeps the predicate decidable). -/
def NoCycle (m : List (String × Msg)) : Prop :=
  ∀ u ∈ keysOf m, ∀ k < m.length + 1, 0 < k → iterP m k (some u) ≠ some u

/-- The stopping condition of the walk, in the amended sense: the parent
identifier is absent, empty, or does not resolve in the lookup. -/
def rootStop (m : List (String × Msg)) (msg : Msg) : Prop :=
  match msg.parent_message_uuid with
  | none => True
  | some p => p = "" ∨ mapFind m p = none

theorem buildMap_go_length (msgs : List Msg) :
    ∀ acc : List (String × Msg),
      (msgs.foldl (fun acc msg => (msg.uuid, msg) :: acc) acc).length = msgs.length + acc.length := by
  induction msgs with
  | nil => intro acc; simp
  | cons x xs ih =>
    intro acc
    simp only [List.foldl_cons, ih, List.length_cons]
    omega

theorem buildMap_length (msgs : List Msg) : (buildMap msgs).length = msgs.length := by
  simpa using buildMap_go_length msgs []

theorem mapFind_mem_keys {m : List (String × Msg)} {u : String} {msg : Msg}
    (h : mapFind m u = some msg) : u ∈ keysOf m := by
  unfold mapFind at h
  rcases hf : m.find? (fun e => e.1 == u) with _ | e
  · rw [hf] at h; simp at h
  · have hmem := List.mem_of_find?_eq_some hf
    have hp := List.find?_some hf
    have : e.1 = u := by simpa using hp
    subst this
    exact List.mem_map.mpr ⟨e, hmem, rfl⟩

theorem pnext_mem_keys {m : List (String × Msg)} {u v : String}
    (h : pnext m u = some v) : v ∈ keysOf m := by
  unfold pnext at h
  rcases hf : mapFind m u with _ | message
  · rw [hf] at h; simp at h
  · rw [hf] at h
    dsimp only at h
    rcases hpar : message.parent_message_uuid with _ | p
    · rw [hpar] at h; simp at h
    · rw [hpar] at h
      dsimp only at h
      by_cases hp : p = ""
      · simp [hp] at h
      · rcases hfp : mapFind m p with _ | pm
        · simp [hp, hfp] at h
        · simp [hp, hfp] at h
          subst h
          exact mapFind_mem_keys hfp

theorem iterP_none_in (m : List (String × Msg)) (k : Nat) : iterP m k none = none := by
  induction k with
  | zero => rfl
  | succ k ih => simpa [iterP, Option.bind] using ih

theorem iterP_add (m : List (String × Msg)) (a b : Nat) (o : Option String) :
    iterP m (a + b) o = iterP m b (iterP m a o) := by
  induction a generalizing o with
  | zero => simp [iterP]
  | succ a ih =>
    have : a + 1 + b = (a + b) + 1 := by omega
    rw [this]
    show iterP m (a + b) (o.bind (pnext m)) = iterP m b (iterP m (a + 1) o)
    rw [ih (o.bind (pnext m))]
    rfl

theorem iterP_succ_out (m : List (String × Msg)) (k : Nat) (o : Option String) :
    iterP m (k + 1) o = (iterP m k o).bind (pnext m) := by
  rw [iterP_add m k 1 o]
  rfl

theorem iterP_none_mono {m : List (String × Msg)} {a : Nat} {o : Option String}
    (h : iterP m a o = none) {b : Nat} (hab : a ≤ b) : iterP m b o = none := by
  have hb : b = a + (b - a) := by omega
  rw [hb, iterP_add, h, iterP_none_in]

theorem iterP_mem_keys {m : List (String × Msg)} {u v : String} {k : Nat}
    (hu : u ∈ keysOf m) (h : iterP m k (some u) = some v) : v ∈ keysOf m := by
  induction k generalizing u with
  | zero => simp [iterP] at h; subst h; exact hu
  | succ k ih =>
    have hstep : iterP m (k + 1) (some u) = iterP m k (pnext m u) := rfl
    rw [hstep] at h
    rcases hp : pnext m u with _ | w
    · rw [hp, iterP_none_in] at h; simp at h
    · rw [hp] at h
      exact ih (pnext_mem_keys hp) h

theorem iterP_not_all_distinct {m : List (String × Msg)} {u : String}
    (hu : u ∈ keysOf m)
    (hsome : ∀ k, k ≤ m.length → iterP m k (some u) ≠ none)
    (hdist : ∀ a b, a ≤ m.length → b ≤ m.length → a ≠ b →
      iterP m a (some u) ≠ iterP m b (some u)) : False := by
  have hcard : ((keysOf m).toFinset).card < (Finset.range (m.length + 1)).card := by
    have h1 : ((keysOf m).toFinset).card = (keysOf m).dedup.length := List.card_toFinset _
    have h2 : (keysOf m).dedup.length ≤ (keysOf m).length :=
      (List.dedup_sublist (keysOf m)).length_le
    have h3 : (keysOf m).length = m.length := List.length_map _ _
    rw [Finset.card_range]
    omega
  have hmaps : ∀ k ∈ Finset.range (m.length + 1),
      (iterP m k (some u)).getD "" ∈ (keysOf m).toFinset := by
    intro k hk
    have hk' : k ≤ m.length := by simpa using Nat.lt_succ_iff.mp (Finset.mem_range.mp hk)
    rcases ho : iterP m k (some u) with _ | v
    · exact absurd ho (hsome k hk')
    · simp only [Option.getD_some]
      exact List.mem_toFinset.mpr (iterP_mem_keys hu ho)
  obtain ⟨a, ha, b, hb, hne, hfab⟩ :=
    Finset.exists_ne_map_eq_of_card_lt_of_maps_to hcard hmaps
  have ha' : a ≤ m.length := Nat.lt_succ_iff.mp (Finset.mem_range.mp ha)
  have hb' : b ≤ m.length := Nat.lt_succ_iff.mp (Finset.mem_range.mp hb)
  rcases hoa : iterP m a (some u) with _ | va
  · exact hsome a ha' hoa
  · rcases hob : iterP m b (some u) with _ | vb
    · exact hsome b hb' hob
    · rw [hoa, hob] at hfab
      simp only [Option.getD_some] at hfab
      subst hfab
      exact hdist a b ha' hb' hne (by rw [hoa, hob])

theorem exists_iterP_none_of_noCycle {m : List (String × Msg)} {u : String}
    (hnc : NoCycle m) (hu : u ∈ keysOf m) :
    ∃ k, k ≤ m.length ∧ iterP m k (some u) = none := by
  by_contra hcon
  push_neg at hcon
  refine iterP_not_all_distinct hu (fun k hk => hcon k hk) ?_
  intro a b ha hb hne heq
  rcases Nat.lt_or_ge a b with hab | hab
  · rcases hoa : iterP m a (some u) with _ | x
    · exact hcon a ha hoa
    · have hx : x ∈ keysOf m := iterP_mem_keys hu hoa
      have hcyc : iterP m (b - a) (some x) = some x := by
        have : iterP m b (some u) = iterP m (b - a) (iterP m a (some u)) := by
          rw [← iterP_add]; congr 1; omega
        rw [hoa] at this
        rw [← this, ← heq, hoa]
      exact hnc x hx (b - a) (by omega) (by omega) hcyc
  · have hba : b < a := by omega
    rcases hob : iterP m b (some u) with _ | x
    · exact hcon b hb hob
    · have hx : x ∈ keysOf m := iterP_mem_keys hu hob
      have hcyc : iterP m (a - b) (some x) = some x := by
        have : iterP m a (some u) = iterP m (a - b) (iterP m b (some u)) := by
          rw [← iterP_add]; congr 1; omega
        rw [hob] at this
        rw [← this, heq, hob]
      exact hnc x hx (a - b) (by omega) (by omega) hcyc

theorem exists_iterP_none_bound {m : List (String × Msg)} {u : String} {j : Nat}
    (hu : u ∈ keysOf m) (hj : iterP m j (some u) = none) :
    ∃ k, k ≤ m.length ∧ iterP m k (some u) = none := by
  have hex : ∃ k, iterP m k (some u) = none := ⟨j, hj⟩
  set K := Nat.find hex with hK
  have hKspec : iterP m K (some u) = none := Nat.find_spec hex
  by_cases hKle : K ≤ m.length
  · exact ⟨K, hKle, hKspec⟩
  · exfalso
    have hKgt : m.length < K := by omega
    refine iterP_not_all_distinct hu ?_ ?_
    · intro k hk
      exact Nat.find_min hex (by omega)
    · intro a b ha hb hne heq
      rcases Nat.lt_or_ge a b with hab | hab
      · have hbK : b ≤ K := by omega
        have hre : iterP m (a + (K - b)) (some u) = none := by
          rw [iterP_add, heq, ← iterP_add]
          have : b + (K - b) = K := by omega
          rw [this, hKspec]
        exact Nat.find_min hex (show a + (K - b) < K by omega) hre
      · have hba : b < a := by omega
        have haK : a ≤ K := by omega
        have hre : iterP m (b + (K - a)) (some u) = none := by
          rw [iterP_add, ← heq, ← iterP_add]
          have : a + (K - a) = K := by omega
          rw [this, hKspec]
        exact Nat.find_min hex (show b + (K - a) < K by omega) hre

theorem jsWalk_empty_cur (m : List (String × Msg)) (fuel : Nat) (acc : List Msg) :
    jsWalk m fuel (some "") acc = acc := by
  cases fuel <;> simp [jsWalk]

theorem jsWalk_eq_specChainT (m : List (String × Msg)) :
    ∀ fuel u acc, u ≠ "" → jsWalk m fuel (some u) acc = specChainT m fuel u ++ acc := by
  intro fuel
  induction fuel with
  | zero => intro u acc _; simp [jsWalk, specChainT]
  | succ fuel ih =>
    intro u acc hu
    show jsWalk m (fuel + 1) (some u) acc = specChainT m (fuel + 1) u ++ acc
    unfold jsWalk specChainT
    simp only [hu, if_false]
    rcases hf : mapFind m u with _ | message
    · simp
    · dsimp only
      rcases hpar : message.parent_message_uuid with _ | p
      · simp [mapHas]
      · by_cases hp : p = ""
        · subst hp
          dsimp only [mapHas]
          by_cases hps : (mapFind m "").isSome
          · simp only [hps, if_true, jsWalk_empty_cur]
            simp
          · simp only [Bool.not_eq_true] at hps
            simp [hps]
        · rcases hfp : mapFind m p with _ | pm
          · simp [mapHas, hfp, hp]
          · dsimp only [mapHas]
            simp only [hfp, Option.isSome_some, if_true, hp, if_false]
            rw [ih p (message :: acc) hp]
            simp

theorem specChainT_stable {m : List (String × Msg)} :
    ∀ k u fuel, iterP m k (some u) = none → k ≤ fuel →
      specChainT m fuel u = specChainT m k u := by
  intro k
  induction k with
  | zero => intro u fuel h _; simp [iterP] at h
  | succ k ih =>
    intro u fuel h hk
    have hstep : iterP m (k + 1) (some u) = iterP m k (pnext m u) := rfl
    rw [hstep] at h
    obtain ⟨fuel', rfl⟩ : ∃ f, fuel = f + 1 := ⟨fuel - 1, by omega⟩
    show specChainT m (fuel' + 1) u = specChainT m (k + 1) u
    unfold specChainT
    rcases hf : mapFind m u with _ | message
    · rfl
    · dsimp only
      rcases hpar : message.parent_message_uuid with _ | p
      · rfl
      · by_cases hp : p = ""
        · simp [hp]
        · rcases hfp : mapFind m p with _ | pm
          · simp [hp, hfp]
          · simp only [hp, if_false, hfp]
            have hpn : pnext m u = some p := by
              unfold pnext
              rw [hf]
              dsimp only
              rw [hpar]
              simp [hp, hfp]
            rw [hpn] at h
            rw [ih p fuel' h (by omega)]

theorem specChainT_ne_nil {m : List (String × Msg)} {u : String} {msg : Msg} {fuel : Nat}
    (h : mapFind m u = some msg) (hf : 1 ≤ fuel) : specChainT m fuel u ≠ [] := by
  obtain ⟨f, rfl⟩ : ∃ f, fuel = f + 1 := ⟨fuel - 1, by omega⟩
  unfold specChainT
  rw [h]
  dsimp only
  rcases hpar : msg.parent_message_uuid with _ | p
  · simp
  · by_cases hp : p = ""
    · simp [hp]
    · rcases hfp : mapFind m p with _ | pm
      · simp [hp, hfp]
      · simp [hp, hfp]

theorem specChainT_getLast {m : List (String × Msg)} {u : String} {msg : Msg} {fuel : Nat}
    (h : mapFind m u = some msg) (hf : 1 ≤ fuel) :
    (specChainT m fuel u).getLast? = some msg := by
  obtain ⟨f, rfl⟩ : ∃ f, fuel = f + 1 := ⟨fuel - 1, by omega⟩
  unfold specChainT
  rw [h]
  dsimp only
  rcases hpar : msg.parent_message_uuid with _ | p
  · simp
  · by_cases hp : p = ""
    · simp [hp]
    · rcases hfp : mapFind m p with _ | pm
      · simp [hp, hfp]
      · simp [hp, hfp]

theorem head_of_append_ne_nil {α : Type} {l : List α} (l' : List α) {x : α}
    (hne : l ≠ []) (h : l.head? = some x) : (l ++ l').head? = some x := by
  cases l with
  | nil => exact absurd rfl hne
  | cons a t => simpa using h

theorem specChainT_head_stop {m : List (String × Msg)} :
    ∀ k u fuel first, iterP m k (some u) = none → k ≤ fuel →
      (specChainT m fuel u).head? = some first → rootStop m first := by
  intro k
  induction k with
  | zero => intro u fuel first h _ _; simp [iterP] at h
  | succ k ih =>
    intro u fuel first h hk hhead
    have hstep : iterP m (k + 1) (some u) = iterP m k (pnext m u) := rfl
    rw [hstep] at h
    obtain ⟨fuel', rfl⟩ : ∃ f, fuel = f + 1 := ⟨fuel - 1, by omega⟩
    unfold specChainT at hhead
    rcases hf : mapFind m u with _ | message
    · rw [hf] at hhead; simp at hhead
    · rw [hf] at hhead
      dsimp only at hhead
      rcases hpar : message.parent_message_uuid with _ | p
      · rw [hpar] at hhead
        simp only [List.head?_cons, Option.some_inj] at hhead
        subst hhead
        unfold rootStop
        rw [hpar]
        trivial
      · rw [hpar] at hhead
        by_cases hp : p = ""
        · simp only [hp, if_true] at hhead
          simp only [List.head?_cons, Option.some_inj] at hhead
          subst hhead
          unfold rootStop
          rw [hpar]
          exact Or.inl hp
        · rcases hfp : mapFind m p with _ | pm
          · simp only [hp, if_false, hfp] at hhead
            simp only [List.head?_cons, Option.some_inj] at hhead
            subst hhead
            unfold rootStop
            rw [hpar]
            exact Or.inr hfp
          · simp only [hp, if_false, hfp] at hhead
            have hpn : pnext m u = some p := by
              unfold pnext
              rw [hf]
              dsimp only
              rw [hpar]
              simp [hp, hfp]
            rw [hpn] at h
            have hk1 : 1 ≤ k := by
              by_contra hk0
              have : k = 0 := by omega
              subst this
              simp [iterP] at h
            have hne : specChainT m fuel' p ≠ [] :=
              specChainT_ne_nil hfp (by omega)
            rcases hh : (specChainT m fuel' p).head? with _ | x
            · rcases hl : specChainT m fuel' p with _ | ⟨a, t⟩
              · exact absurd hl hne
              · rw [hl] at hh; simp at hh
            · have hax := head_of_append_ne_nil [message] hne hh
              rw [hax] at hhead
              have hx : x = first := by simpa using hhead
              rw [hx] at hh
              exact ih p fuel' first h (by omega) hh

theorem specChainT_mem_reach {m : List (String × Msg)} :
    ∀ fuel u msg, msg ∈ specChainT m fuel u →
      ∃ k w, iterP m k (some u) = some w ∧ mapFind m w = some msg := by
  intro fuel
  induction fuel with
  | zero => intro u msg h; simp [specChainT] at h
  | succ fuel ih =>
    intro u msg h
    unfold specChainT at h
    rcases hf : mapFind m u with _ | message
    · rw [hf] at h; simp at h
    · rw [hf] at h
      dsimp only at h
      rcases hpar : message.parent_message_uuid with _ | p
      · rw [hpar] at h
        simp only [List.mem_singleton] at h
        subst h
        exact ⟨0, u, rfl, hf⟩
      · rw [hpar] at h
        by_cases hp : p = ""
        · simp only [hp, if_true, List.mem_singleton] at h
          subst h
          exact ⟨0, u, rfl, hf⟩
        · rcases hfp : mapFind m p with _ | pm
          · simp only [hp, if_false, hfp, List.mem_singleton] at h
            subst h
            exact ⟨0, u, rfl, hf⟩
          · simp only [hp, if_false, hfp, List.mem_append, List.mem_singleton] at h
            rcases h with h | h
            · obtain ⟨k, w, hkw, hw⟩ := ih p msg h
              refine ⟨k + 1, w, ?_, hw⟩
              have hpn : pnext m u = some p := by
                unfold pnext
                rw [hf]
                dsimp only
                rw [hpar]
                simp [hp, hfp]
              show iterP m k ((some u).bind (pnext m)) = some w
              simpa [hpn] using hkw
            · subst h
              exact ⟨0, u, rfl, hf⟩

instance (m : List (String × Msg)) : Decidable (NoCycle m) := by
  unfold NoCycle
  infer_instance

theorem specChainT_unres {m : List (String × Msg)} {u : String}
    (h : mapFind m u = none) : ∀ fuel, specChainT m fuel u = [] := by
  intro fuel
  cases fuel with
  | zero => rfl
  | succ f => unfold specChainT; rw [h]

theorem getCurrentBranch_default_fuel {data : ConvRecord} {msgs : List Msg}
    (hmsgs : data.chat_messages = some msgs) :
    getCurrentBranch data = getCurrentBranchFuel data (msgs.length + 1) := by
  unfold getCurrentBranch
  rw [hmsgs]
  rfl

theorem getCurrentBranchFuel_eq_chain {data : ConvRecord} {msgs : List Msg} {leaf : String}
    (hmsgs : data.chat_messages = some msgs)
    (hleaf : data.current_leaf_message_uuid = some leaf)
    (hne : leaf ≠ "")
    {k : Nat} (hk : k ≤ msgs.length)
    (hnone : iterP (buildMap msgs) k (some leaf) = none) :
    ∀ fuel, msgs.length + 1 ≤ fuel →
      getCurrentBranchFuel data fuel = specChainT (buildMap msgs) k leaf := by
  intro fuel hfuel
  unfold getCurrentBranchFuel
  rw [hmsgs, hleaf]
  simp only [hne, if_false]
  rw [jsWalk_eq_specChainT (buildMap msgs) fuel leaf [] hne, List.append_nil]
  exact specChainT_stable k leaf fuel hnone (by omega)

/-- C9: under acyclic parent pointers the walk of getCurrentBranch
terminates: its result is independent of the fuel once the fuel reaches
one step per message plus one, so the loop never runs indefinitely. -/
theorem getCurrentBranch_terminates (data : ConvRecord) (msgs : List Msg)
    (hmsgs : data.chat_messages = some msgs) (hnc : NoCycle (buildMap msgs)) :
    ∀ fuel, msgs.length + 1 ≤ fuel → getCurrentBranchFuel data fuel = getCurrentBranch data := by
  intro fuel hfuel
  rw [getCurrentBranch_default_fuel hmsgs]
  rcases hleaf : data.current_leaf_message_uuid with _ | leaf
  · unfold getCurrentBranchFuel
    rw [hmsgs, hleaf]
  · by_cases hne : leaf = ""
    · unfold getCurrentBranchFuel
      rw [hmsgs, hleaf]
      simp [hne]
    · rcases hres : mapFind (buildMap msgs) leaf with _ | lm
      · unfold getCurrentBranchFuel
        rw [hmsgs, hleaf]
        simp only [hne, if_false]
        rw [jsWalk_eq_specChainT (buildMap msgs) fuel leaf [] hne,
          jsWalk_eq_specChainT (buildMap msgs) (msgs.length + 1) leaf [] hne,
          specChainT_unres hres, specChainT_unres hres]
      · have hkeys : leaf ∈ keysOf (buildMap msgs) := mapFind_mem_keys hres
        obtain ⟨k, hk, hnone⟩ := exists_iterP_none_of_noCycle hnc hkeys
        have hk' : k ≤ msgs.length := by
          have := buildMap_length msgs
          omega
        rw [getCurrentBranchFuel_eq_chain hmsgs hleaf hne hk' hnone fuel hfuel,
          getCurrentBranchFuel_eq_chain hmsgs hleaf hne hk' hnone (msgs.length + 1) (by omega)]

/-- C9 witness: a concrete two-message acyclic conversation, at which the
result of the walk is already stable at the default fuel. -/
theorem getCurrentBranch_terminates_witness :
    getCurrentBranchFuel
        ⟨"c", none, none, none, 0, 0,
          some [⟨"r", none, "human", none, none, none⟩,
                ⟨"l", some "r", "assistant", none, none, none⟩], some "l"⟩ 7 =
      getCurrentBranch
        ⟨"c", none, none, none, 0, 0,
          some [⟨"r", none, "human", none, none, none⟩,
                ⟨"l", some "r", "assistant", none, none, none⟩], some "l"⟩ :=
  getCurrentBranch_terminates _
    [⟨"r", none, "human", none, none, none⟩, ⟨"l", some "r", "assistant", none, none, none⟩]
    rfl (by decide) 7 (by decide)

/-- C1 (amended): for every record whose message collection is present,
whose current-leaf identifier is a non-empty string resolving to a
message, and whose parent pointers are acyclic, getCurrentBranch returns
exactly the chain obtained by starting at the current-leaf message and
following parent identifiers, prepending each resolved message and
stopping when the parent identifier is absent, empty (JS-falsy) or
unresolvable; the result is independent of the fuel, the stopping (root)
message is the first element, the leaf message is the last element, and
every message of the output is resolved from a uuid reachable from the
leaf via parent steps. -/
theorem getCurrentBranch_branch_spec (data : ConvRecord) (msgs : List Msg)
    (leaf : String) (lm : Msg)
    (hmsgs : data.chat_messages = some msgs)
    (hleaf : data.current_leaf_message_uuid = some leaf)
    (hne : leaf ≠ "")
    (hres : mapFind (buildMap msgs) leaf = some lm)
    (hnc : NoCycle (buildMap msgs)) :
    (∀ fuel, msgs.length + 1 ≤ fuel →
        getCurrentBranchFuel data fuel = getCurrentBranch data ∧
        getCurrentBranch data = specChainT (buildMap msgs) fuel leaf) ∧
    (getCurrentBranch data).getLast? = some lm ∧
    (∀ first, (getCurrentBranch data).head? = some first → rootStop (buildMap msgs) first) ∧
    (∀ msg ∈ getCurrentBranch data,
      ∃ k w, iterP (buildMap msgs) k (some leaf) = some w ∧
        mapFind (buildMap msgs) w = some msg) := by
  have hkeys : leaf ∈ keysOf (buildMap msgs) := mapFind_mem_keys hres
  obtain ⟨k, hk, hnone⟩ := exists_iterP_none_of_noCycle hnc hkeys
  have hk' : k ≤ msgs.length := by
    have := buildMap_length msgs
    omega
  have hk1 : 1 ≤ k := by
    rcases Nat.eq_zero_or_pos k with h0 | h1
    · subst h0; simp [iterP] at hnone
    · omega
  have hbranch : getCurrentBranch data = specChainT (buildMap msgs) k leaf := by
    rw [getCurrentBranch_default_fuel hmsgs]
    exact getCurrentBranchFuel_eq_chain hmsgs hleaf hne hk' hnone (msgs.length + 1) (by omega)
  refine ⟨?_, ?_, ?_, ?_⟩
  · intro fuel hfuel
    constructor
    · rw [getCurrentBranchFuel_eq_chain hmsgs hleaf hne hk' hnone fuel hfuel, hbranch]
    · rw [hbranch, specChainT_stable k leaf fuel hnone (by omega)]
  · rw [hbranch]
    exact specChainT_getLast hres hk1
  · intro first hfirst
    rw [hbranch] at hfirst
    exact specChainT_head_stop k leaf k first hnone (by omega) hfirst
  · intro msg hmsg
    rw [hbranch] at hmsg
    exact specChainT_mem_reach k leaf msg hmsg

/-- C1 witness: a concrete three-message conversation with one inactive
sibling branch; the claim theorem applies and the branch is the root-leaf
chain, fuel-independent, with the inactive sibling excluded. -/
theorem getCurrentBranch_branch_spec_witness :
    (getCurrentBranch
        ⟨"c", none, none, none, 0, 0,
          some [⟨"r", none, "human", none, none, none⟩,
                ⟨"s", some "r", "assistant", none, none, none⟩,
                ⟨"l", some "r", "assistant", none, none, none⟩], some "l"⟩).getLast? =
      some ⟨"l", some "r", "assistant", none, none, none⟩ ∧
    getCurrentBranch
        ⟨"c", none, none, none, 0, 0,
          some [⟨"r", none, "human", none, none, none⟩,
                ⟨"s", some "r", "assistant", none, none, none⟩,
                ⟨"l", some "r", "assistant", none, none, none⟩], some "l"⟩ =
      specChainT
        (buildMap [⟨"r", none, "human", none, none, none⟩,
                   ⟨"s", some "r", "assistant", none, none, none⟩,
                   ⟨"l", some "r", "assistant", none, none, none⟩]) 9 "l" :=
  ⟨(getCurrentBranch_branch_spec _
      [⟨"r", none, "human", none, none, none⟩,
       ⟨"s", some "r", "assistant", none, none, none⟩,
       ⟨"l", some "r", "assistant", none, none, none⟩]
      "l" ⟨"l", some "r", "assistant", none, none, none⟩
      rfl rfl (by decide) (by decide) (by decide)).2.1,
   ((getCurrentBranch_branch_spec _
      [⟨"r", none, "human", none, none, none⟩,
       ⟨"s", some "r", "assistant", none, none, none⟩,
       ⟨"l", some "r", "assistant", none, none, none⟩]
      "l" ⟨"l", some "r", "assistant", none, none, none⟩
      rfl rfl (by decide) (by decide) (by decide)).1 9 (by decide)).2⟩

/-- C1 fails as stated because of JS truthiness of identifiers: a
current-leaf identifier equal to the empty string resolves in the lookup
yet yields the empty branch, and a resolvable empty-string parent
identifier stops the walk even though it is neither absent nor
unresolvable, so the code's output omits the root message that the
claimed chain contains. -/
theorem getCurrentBranch_claim_counterexample :
    (mapFind (buildMap [⟨"", none, "human", none, none, none⟩]) "").isSome = true ∧
    getCurrentBranch
      ⟨"c0", none, none, none, 0, 0,
        some [⟨"", none, "human", none, none, none⟩], some ""⟩ = [] ∧
    getCurrentBranch
      ⟨"c1", none, none, none, 0, 0,
        some [⟨"", none, "human", none, none, none⟩,
              ⟨"a", some "", "human", none, none, none⟩], some "a"⟩ =
      [⟨"a", some "", "human", none, none, none⟩] ∧
    reconstructBranchLit
      ⟨"c1", none, none, none, 0, 0,
        some [⟨"", none, "human", none, none, none⟩,
              ⟨"a", some "", "human", none, none, none⟩], some "a"⟩ =
      [⟨"", none, "human", none, none, none⟩,
       ⟨"a", some "", "human", none, none, none⟩] := by
  refine ⟨by decide, by decide, by decide, by decide⟩

/-- C3: getCurrentBranch never fails: a null or empty message collection,
a null current-leaf identifier or an unresolvable current-leaf identifier
all yield the empty branch, and a dangling parent reference anywhere on
the walked chain (a truthy parent identifier resolving to no message)
makes the walk terminate gracefully with a valid, possibly shorter,
branch that still ends at the leaf message. -/
theorem getCurrentBranch_error_tolerance :
    (∀ data : ConvRecord, data.chat_messages = none → getCurrentBranch data = []) ∧
    (∀ data : ConvRecord, data.chat_messages = some [] → getCurrentBranch data = []) ∧
    (∀ data : ConvRecord, data.current_leaf_message_uuid = none → getCurrentBranch data = []) ∧
    (∀ (data : ConvRecord) (msgs : List Msg) (leaf : String),
      data.chat_messages = some msgs → data.current_leaf_message_uuid = some leaf →
      mapFind (buildMap msgs) leaf = none → getCurrentBranch data = []) ∧
    (∀ (data : ConvRecord) (msgs : List Msg) (leaf : String) (lm : Msg)
        (k : Nat) (w p : String) (msgw : Msg),
      data.chat_messages = some msgs →
      data.current_leaf_message_uuid = some leaf → leaf ≠ "" →
      mapFind (buildMap msgs) leaf = some lm →
      iterP (buildMap msgs) k (some leaf) = some w →
      mapFind (buildMap msgs) w = some msgw →
      msgw.parent_message_uuid = some p → p ≠ "" →
      mapFind (buildMap msgs) p = none →
      (∀ fuel, msgs.length + 1 ≤ fuel → getCurrentBranchFuel data fuel = getCurrentBranch data) ∧
      getCurrentBranch data ≠ [] ∧
      (getCurrentBranch data).getLast? = some lm) := by
  refine ⟨?_, ?_, ?_, ?_, ?_⟩
  · intro data h
    unfold getCurrentBranch getCurrentBranchFuel
    rw [h]
  · intro data h
    unfold getCurrentBranch getCurrentBranchFuel
    rw [h]
    rcases hleaf : data.current_leaf_message_uuid with _ | leaf
    · rfl
    · by_cases hne : leaf = ""
      · simp [hne]
      · simp only [hne, if_false]
        rw [jsWalk_eq_specChainT (buildMap []) _ leaf [] hne]
        rw [specChainT_unres (show mapFind (buildMap []) leaf = none from rfl)]
        rfl
  · intro data h
    unfold getCurrentBranch getCurrentBranchFuel
    rcases hm : data.chat_messages with _ | msgs
    · rfl
    · rw [h]
  · intro data msgs leaf hmsgs hleaf hres
    rw [getCurrentBranch_default_fuel hmsgs]
    unfold getCurrentBranchFuel
    rw [hmsgs, hleaf]
    by_cases hne : leaf = ""
    · simp [hne]
    · simp only [hne, if_false]
      rw [jsWalk_eq_specChainT (buildMap msgs) _ leaf [] hne, specChainT_unres hres]
      rfl
  · intro data msgs leaf lm k w p msgw hmsgs hleaf hne hres hit hw hpar hp hfp
    have hpn : pnext (buildMap msgs) w = none := by
      unfold pnext
      rw [hw]
      dsimp only
      rw [hpar]
      simp [hp, hfp]
    have hnone1 : iterP (buildMap msgs) (k + 1) (some leaf) = none := by
      rw [iterP_succ_out, hit]
      simpa using hpn
    have hkeys : leaf ∈ keysOf (buildMap msgs) := mapFind_mem_keys hres
    obtain ⟨j, hj, hjnone⟩ := exists_iterP_none_bound hkeys hnone1
    have hj' : j ≤ msgs.length := by
      have := buildMap_length msgs
      omega
    have hj1 : 1 ≤ j := by
      rcases Nat.eq_zero_or_pos j with h0 | h1
      · subst h0; simp [iterP] at hjnone
      · omega
    have hbranch : getCurrentBranch data = specChainT (buildMap msgs) j leaf := by
      rw [getCurrentBranch_default_fuel hmsgs]
      exact getCurrentBranchFuel_eq_chain hmsgs hleaf hne hj' hjnone (msgs.length + 1) (by omega)
    refine ⟨?_, ?_, ?_⟩
    · intro fuel hfuel
      rw [getCurrentBranchFuel_eq_chain hmsgs hleaf hne hj' hjnone fuel hfuel, hbranch]
    · rw [hbranch]
      exact specChainT_ne_nil hres hj1
    · rw [hbranch]
      exact specChainT_getLast hres hj1

/-- C3 witness: a null message collection yields [], an unresolvable leaf
yields [], and a single-message conversation whose parent identifier
dangles yields the one-message branch with a stable walk. -/
theorem getCurrentBranch_error_tolerance_witness :
    getCurrentBranch ⟨"w0", none, none, none, 0, 0, none, some "x"⟩ = [] ∧
    getCurrentBranch
      ⟨"w1", none, none, none, 0, 0,
        some [⟨"a", some "missing", "human", none, none, none⟩], some "zz"⟩ = [] ∧
    getCurrentBranchFuel
      ⟨"w2", none, none, none, 0, 0,
        some [⟨"a", some "missing", "human", none, none, none⟩], some "a"⟩ 9 =
      getCurrentBranch
      ⟨"w2", none, none, none, 0, 0,
        some [⟨"a", some "missing", "human", none, none, none⟩], some "a"⟩ ∧
    (getCurrentBranch
      ⟨"w2", none, none, none, 0, 0,
        some [⟨"a", some "missing", "human", none, none, none⟩], some "a"⟩).getLast? =
      some ⟨"a", some "missing", "human", none, none, none⟩ :=
  ⟨getCurrentBranch_error_tolerance.1 _ rfl,
   getCurrentBranch_error_tolerance.2.2.2.1 _
     [⟨"a", some "missing", "human", none, none, none⟩] "zz" rfl rfl (by decide),
   ((getCurrentBranch_error_tolerance.2.2.2.2 _
     [⟨"a", some "missing", "human", none, none, none⟩] "a"
     ⟨"a", some "missing", "human", none, none, none⟩ 0 "a" "missing"
     ⟨"a", some "missing", "human", none, none, none⟩
     rfl rfl (by decide) (by decide) (by decide) (by decide) (by decide) (by decide)
     (by decide)).1 9 (by decide)),
   ((getCurrentBranch_error_tolerance.2.2.2.2 _
     [⟨"a", some "missing", "human", none, none, none⟩] "a"
     ⟨"a", some "missing", "human", none, none, none⟩ 0 "a" "missing"
     ⟨"a", some "missing", "human", none, none, none⟩
     rfl rfl (by decide) (by decide) (by decide) (by decide) (by decide) (by decide)
     (by decide)).2.2)⟩

/-- Modelled: new Date(x).toLocaleString() on a message timestamp string;
locale rendering is environment-dependent and kept abstract as the
identity on the stored string. -/
def dateDisplay (s : String) : String := s

/-- Modelled: new Date(x).toLocaleString() on a record timestamp; locale
rendering is environment-dependent and modelled as the decimal rendering
of the epoch-millisecond value. -/
def dateDisplayNat (n : Nat) : String := toString n

/-- The message-body extraction of convertToMarkdown: concatenate the
truthy text of each content block followed by a blank line, or fall back
to the flat text field when content is null. -/
def markdownBody (message : Msg) : String :=
  match message.content with
  | some blocks =>
    blocks.foldl (fun acc content =>
      match content.text with
      | some t => if t = "" then acc else acc ++ t ++ "\n\n"
      | none => acc) ""
  | none =>
    match message.text with
    | some t => if t = "" then "" else t ++ "\n\n"
    | none => ""

/-- The per-message loop of convertToMarkdown from src/content.js. -/
def convertToMarkdownLoop : List Msg → Bool → String → String
  | [], _, markdown => markdown
  | message :: rest, includeMetadata, markdown =>
    let sender := if message.sender = "human" then "**You**" else "**Claude**"
    let markdown := markdown ++ sender ++ ":\n\n"
    let markdown := markdown ++ markdownBody message
    let markdown :=
      if includeMetadata && strTruthy message.created_at then
        markdown ++ "*" ++ dateDisplay (message.created_at.getD "") ++ "*\n\n"
      else markdown
    convertToMarkdownLoop rest includeMetadata (markdown ++ "---\n\n")

/-- convertToMarkdown from src/content.js: title heading, optional
metadata block, then the current branch rendered message by message. -/
def convertToMarkdown (data : ConvRecord) (includeMetadata : Bool) : String :=
  let markdown :=
    "# " ++ (if strTruthy data.name then data.name.getD "" else "Untitled Conversation") ++ "\n\n"
  let markdown :=
    if includeMetadata then
      markdown ++ "**Created:** " ++ dateDisplayNat data.created_at ++ "\n" ++
        "**Updated:** " ++ dateDisplayNat data.updated_at ++ "\n" ++
        "**Model:** " ++ optStrJS data.model ++ "\n\n" ++ "---\n\n"
    else markdown
  convertToMarkdownLoop (getCurrentBranch data) includeMetadata markdown

/-- The message-text extraction of convertToText: concatenate the truthy
text of each content block, or fall back to the flat text field when
content is null. -/
def extractText (message : Msg) : String :=
  match message.content with
  | some blocks =>
    blocks.foldl (fun acc content =>
      match content.text with
      | some t => if t = "" then acc else acc ++ t
      | none => acc) ""
  | none =>
    match message.text with
    | some t => if t = "" then "" else t
    | none => ""

/-- The forEach loop of convertToText from src/content.js, carrying the
humanSeen and assistantSeen flags. -/
def convertToTextLoop : List Msg → Bool → Bool → String → String
  | [], _, _, text => text
  | message :: rest, humanSeen, assistantSeen, text =>
    let messageText := extractText message
    if message.sender = "human" then
      convertToTextLoop rest true assistantSeen
        (text ++ (if humanSeen then "H" else "Human") ++ ": " ++ messageText ++ "\n\n")
    else
      convertToTextLoop rest humanSeen true
        (text ++ (if assistantSeen then "A" else "Assistant") ++ ": " ++ messageText ++ "\n\n")

/-- The metadata header block of convertToText. -/
def textHeader (data : ConvRecord) (includeMetadata : Bool) : String :=
  if includeMetadata then
    (if strTruthy data.name then data.name.getD "" else "Untitled Conversation") ++ "\n" ++
      "Created: " ++ dateDisplayNat data.created_at ++ "\n" ++
      "Updated: " ++ dateDisplayNat data.updated_at ++ "\n" ++
      "Model: " ++ optStrJS data.model ++ "\n\n" ++ "---\n\n"
  else ""

/-- convertToText from src/content.js: optional metadata header, the
label-abbreviating message loop, and a final trim. -/
def convertToText (data : ConvRecord) (includeMetadata : Bool) : String :=
  (convertToTextLoop (getCurrentBranch data) false false
    (textHeader data includeMetadata)).trim

/-- Modelled from the spec: the label of a sender given the senders seen
before it in the branch; the full word on the first occurrence of that
sender, a one-letter abbreviation on every later occurrence, tracked
independently per sender (any sender other than human counts as the
assistant). -/
def specLabel (prev : List String) (s : String) : String :=
  if s = "human" then (if prev.any (fun x => x == "human") then "H" else "Human")
  else (if prev.any (fun x => x != "human") then "A" else "Assistant")

/-- Modelled from the spec: the message section of the text encoding, one
labelled line per message followed by a blank line. -/
def specTextBody : List String → List Msg → String
  | _, [] => ""
  | prev, message :: rest =>
    specLabel prev message.sender ++ ": " ++ extractText message ++ "\n\n" ++
      specTextBody (prev ++ [message.sender]) rest

/-- Modelled from the spec: the list of labels produced for a list of
senders. -/
def specLabels : List String → List String → List String
  | _, [] => []
  | prev, s :: rest => specLabel prev s :: specLabels (prev ++ [s]) rest

theorem convertToTextLoop_spec (branch : List Msg) :
    ∀ (prev : List String) (txt : String),
      convertToTextLoop branch (prev.any (fun x => x == "human"))
        (prev.any (fun x => x != "human")) txt = txt ++ specTextBody prev branch := by
  induction branch with
  | nil =>
    intro prev txt
    simp [convertToTextLoop, specTextBody]
  | cons message rest ih =>
    intro prev txt
    unfold convertToTextLoop specTextBody
    by_cases hs : message.sender = "human"
    · simp only [hs, if_true, specLabel]
      have h1 : (prev ++ [message.sender]).any (fun x => x == "human") = true := by
        simp [hs]
      have h2 : (prev ++ [message.sender]).any (fun x => x != "human") =
          prev.any (fun x => x != "human") := by
        simp [hs]
      have := ih (prev ++ [message.sender])
        (txt ++ (if prev.any (fun x => x == "human") then "H" else "Human") ++ ": " ++
          extractText message ++ "\n\n")
      rw [h1, h2] at this
      rw [this]
      simp [String.append_assoc]
      rw [hs]
    · simp only [hs, if_false, specLabel]
      have hsb : (message.sender == "human") = false := by
        simpa using hs
      have h1 : (prev ++ [message.sender]).any (fun x => x == "human") =
          prev.any (fun x => x == "human") := by
        simp [hsb]
      have h2 : (prev ++ [message.sender]).any (fun x => x != "human") = true := by
        simp
        exact Or.inr hs
      have := ih (prev ++ [message.sender])
        (txt ++ (if prev.any (fun x => x != "human") then "A" else "Assistant") ++ ": " ++
          extractText message ++ "\n\n")
      rw [h1, h2] at this
      rw [this]
      simp [String.append_assoc]

/-- C7: in the text encoding the sender label of each message is the full
word on the first occurrence of that sender in the branch and the
one-letter abbreviation on every later occurrence of that same sender,
tracked independently per sender: convertToText equals the optional
header followed by the per-message lines labelled by this rule, and the
sender sequence human, assistant, human, human, assistant produces the
labels Human, Assistant, H, H, A. -/
theorem convertToText_label_abbreviation :
    (∀ (data : ConvRecord) (includeMetadata : Bool),
      convertToText data includeMetadata =
        (textHeader data includeMetadata ++
          specTextBody [] (getCurrentBranch data)).trim) ∧
    convertToTextLoop
      [⟨"1", none, "human", none, none, none⟩,
       ⟨"2", some "1", "assistant", none, none, none⟩,
       ⟨"3", some "2", "human", none, none, none⟩,
       ⟨"4", some "3", "human", none, none, none⟩,
       ⟨"5", some "4", "assistant", none, none, none⟩] false false "" =
      "Human: \n\nAssistant: \n\nH: \n\nH: \n\nA: \n\n" ∧
    specLabels [] ["human", "assistant", "human", "human", "assistant"] =
      ["Human", "Assistant", "H", "H", "A"] := by
  refine ⟨?_, by decide, by decide⟩
  intro data includeMetadata
  unfold convertToText
  have hbody := convertToTextLoop_spec (getCurrentBranch data) [] (textHeader data includeMetadata)
  simp only [List.any_nil] at hbody
  exact congrArg String.trim hbody

/-- C10: every message whose sender is not exactly the string human is
rendered as the assistant: the markdown loop labels it with the bold
Claude label and the text loop labels it Assistant (or A once an
assistant has been seen), and both renderers remain total on such
senders. -/
theorem nonhuman_sender_renders_as_assistant (message : Msg) (rest : List Msg)
    (inc : Bool) (md : String) (hs : message.sender ≠ "human") :
    convertToMarkdownLoop (message :: rest) inc md =
      convertToMarkdownLoop rest inc
        ((if inc && strTruthy message.created_at then
            md ++ "**Claude**" ++ ":\n\n" ++ markdownBody message ++ "*" ++
              dateDisplay (message.created_at.getD "") ++ "*\n\n"
          else md ++ "**Claude**" ++ ":\n\n" ++ markdownBody message) ++ "---\n\n") ∧
    (∀ (hsn asn : Bool) (txt : String),
      convertToTextLoop (message :: rest) hsn asn txt =
        convertToTextLoop rest hsn true
          (txt ++ (if asn then "A" else "Assistant") ++ ": " ++
            extractText message ++ "\n\n")) := by
  constructor
  · conv_lhs => unfold convertToMarkdownLoop
    simp only [hs, if_false]
  · intro hsn asn txt
    conv_lhs => unfold convertToTextLoop
    simp only [hs, if_false]

/-- C10 witness: a concrete message with the unknown sender tool is
labelled Claude in markdown and Assistant in text. -/
theorem nonhuman_sender_renders_as_assistant_witness :
    convertToMarkdownLoop [⟨"m", none, "tool", none, some "hi", none⟩] false "" =
      convertToMarkdownLoop [] false
        ((if false && strTruthy (none : Option String) then
            "" ++ "**Claude**" ++ ":\n\n" ++
              markdownBody ⟨"m", none, "tool", none, some "hi", none⟩ ++ "*" ++
              dateDisplay ((none : Option String).getD "") ++ "*\n\n"
          else "" ++ "**Claude**" ++ ":\n\n" ++
            markdownBody ⟨"m", none, "tool", none, some "hi", none⟩) ++ "---\n\n") ∧
    convertToTextLoop [⟨"m", none, "tool", none, some "hi", none⟩] false false "" =
      convertToTextLoop [] false true
        ("" ++ (if false then "A" else "Assistant") ++ ": " ++
          extractText ⟨"m", none, "tool", none, some "hi", none⟩ ++ "\n\n") :=
  ⟨(nonhuman_sender_renders_as_assistant
      ⟨"m", none, "tool", none, some "hi", none⟩ [] false "" (by decide)).1,
   (nonhuman_sender_renders_as_assistant
      ⟨"m", none, "tool", none, some "hi", none⟩ [] false "" (by decide)).2 false false ""⟩

/-- The illegal filename characters of the sanitizing regex in
exportAllFiltered. -/
def illegalFilenameChars : List Char := ['<', '>', ':', '"', '/', '\\', '|', '?', '*']

/-- The global replace of exportAllFiltered: every illegal character of
the conversation name becomes an underscore (stated on the character list
of the string). -/
def sanitizeFilename (s : String) : String :=
  String.mk (s.data.map (fun c => if c ∈ illegalFilenameChars then '_' else c))

/-- The extension chosen by the format switch (markdown, text, default
json). -/
def formatExt (format : String) : String :=
  if format = "markdown" then ".md" else if format = "text" then ".txt" else ".json"

/-- The filename built by the exportConversation message handler in
src/content.js (each switch case prefixes claude-conversation- and picks
the truthy name or the request's conversation id). -/
def handlerExportFilename (data : ConvRecord) (conversationId : String)
    (format : String) : String :=
  "claude-conversation-" ++
    (if strTruthy data.name then data.name.getD "" else conversationId) ++ formatExt format

/-- The filename built by exportConversation on the manager page (each
switch case prefixes claude- and picks the truthy name or the
conversation id). -/
def pageExportFilename (conversationName conversationId : String) (format : String) : String :=
  "claude-" ++ (if conversationName ≠ "" then conversationName else conversationId) ++
    formatExt format

/-- A JSON value, modelling the JS-side JSON structures and the output of
JSON.stringify. -/
inductive Json where
  | null
  | bool (b : Bool)
  | num (n : Nat)
  | str (s : String)
  | arr (xs : List Json)
  | obj (fields : List (String × Json))
deriving Repr

/-- Escape a string for JSON output (quote and backslash). -/
def jsonEscape (s : String) : String :=
  s.foldl (fun acc c =>
    if c = '"' then acc ++ "\\\""
    else if c = '\\' then acc ++ "\\\\"
    else acc.push c) ""

mutual
/-- Modelled: JSON.stringify on a JSON value (the pretty-printing
whitespace of the null, 2 arguments is not reproduced; no claim depends
on it). -/
def jsonStringify : Json → String
  | .null => "null"
  | .bool true => "true"
  | .bool false => "false"
  | .num n => toString n
  | .str s => "\"" ++ jsonEscape s ++ "\""
  | .arr xs => "[" ++ jsonStringifyArr xs ++ "]"
  | .obj fs => "\x7b" ++ jsonStringifyObj fs ++ "\x7d"

/-- Render the comma-separated elements of a JSON array. -/
def jsonStringifyArr : List Json → String
  | [] => ""
  | [x] => jsonStringify x
  | x :: xs => jsonStringify x ++ "," ++ jsonStringifyArr xs

/-- Render the comma-separated fields of a JSON object. -/
def jsonStringifyObj : List (String × Json) → String
  | [] => ""
  | [(k, v)] => "\"" ++ jsonEscape k ++ "\":" ++ jsonStringify v
  | (k, v) :: fs => "\"" ++ jsonEscape k ++ "\":" ++ jsonStringify v ++ "," ++ jsonStringifyObj fs
end

/-- Encode a nullable string exactly as JSON.stringify treats the
record's nullable fields. -/
def encodeOptStr : Option String → Json
  | none => Json.null
  | some s => Json.str s

/-- The JSON shape of a content block. -/
def encodeBlock (b : Block) : Json :=
  Json.obj [("text", encodeOptStr b.text)]

/-- The JSON shape of a message. -/
def encodeMsg (m : Msg) : Json :=
  Json.obj [("uuid", Json.str m.uuid),
            ("parent_message_uuid", encodeOptStr m.parent_message_uuid),
            ("sender", Json.str m.sender),
            ("content", match m.content with
                        | none => Json.null
                        | some blocks => Json.arr (blocks.map encodeBlock)),
            ("text", encodeOptStr m.text),
            ("created_at", encodeOptStr m.created_at)]

/-- The JSON shape of a full conversation record. -/
def encodeRecord (d : ConvRecord) : Json :=
  Json.obj [("uuid", Json.str d.uuid),
            ("name", encodeOptStr d.name),
            ("summary", encodeOptStr d.summary),
            ("model", encodeOptStr d.model),
            ("created_at", Json.num d.created_at),
            ("updated_at", Json.num d.updated_at),
            ("chat_messages", match d.chat_messages with
                              | none => Json.null
                              | some msgs => Json.arr (msgs.map encodeMsg)),
            ("current_leaf_message_uuid", encodeOptStr d.current_leaf_message_uuid)]

/-- Field lookup in a parsed JSON object. -/
def jGet (fields : List (String × Json)) (k : String) : Option Json :=
  (fields.find? (fun e => e.1 == k)).map (fun e => e.2)

/-- Read a JSON value as a string. -/
def asStr : Json → Option String
  | Json.str s => some s
  | _ => none

/-- Read a JSON value as a number. -/
def asNum : Json → Option Nat
  | Json.num n => some n
  | _ => none

/-- Read a JSON value as a nullable string. -/
def asOptStr : Json → Option (Option String)
  | Json.null => some none
  | Json.str s => some (some s)
  | _ => none

/-- Parse a content block from JSON. -/
def decodeBlock : Json → Option Block
  | Json.obj fs =>
    match (jGet fs "text").bind asOptStr with
    | some t => some ⟨t⟩
    | none => none
  | _ => none

/-- Parse a message from JSON. -/
def decodeMsg : Json → Option Msg
  | Json.obj fs =>
    match (jGet fs "uuid").bind asStr,
          (jGet fs "parent_message_uuid").bind asOptStr,
          (jGet fs "sender").bind asStr,
          (jGet fs "text").bind asOptStr,
          (jGet fs "created_at").bind asOptStr with
    | some uuid, some parent, some sender, some text, some created =>
      match jGet fs "content" with
      | some Json.null => some ⟨uuid, parent, sender, none, text, created⟩
      | some (Json.arr xs) =>
        match xs.mapM decodeBlock with
        | some blocks => some ⟨uuid, parent, sender, some blocks, text, created⟩
        | none => none
      | _ => none
    | _, _, _, _, _ => none
  | _ => none

/-- Parse a full conversation record from JSON. -/
def decodeRecord : Json → Option ConvRecord
  | Json.obj fs =>
    match (jGet fs "uuid").bind asStr,
          (jGet fs "name").bind asOptStr,
          (jGet fs "summary").bind asOptStr,
          (jGet fs "model").bind asOptStr,
          (jGet fs "created_at").bind asNum,
          (jGet fs "updated_at").bind asNum,
          (jGet fs "current_leaf_message_uuid").bind asOptStr with
    | some uuid, some name, some summary, some model, some created, some updated, some leaf =>
      match jGet fs "chat_messages" with
      | some Json.null => some ⟨uuid, name, summary, model, created, updated, none, leaf⟩
      | some (Json.arr xs) =>
        match xs.mapM decodeMsg with
        | some msgs => some ⟨uuid, name, summary, model, created, updated, some msgs, leaf⟩
        | none => none
      | _ => none
    | _, _, _, _, _, _, _ => none
  | _ => none

theorem asOptStr_encodeOptStr (o : Option String) : asOptStr (encodeOptStr o) = some o := by
  cases o <;> rfl

theorem decodeBlock_encodeBlock (b : Block) : decodeBlock (encodeBlock b) = some b := by
  rcases b with ⟨t⟩
  cases t <;> rfl

theorem mapM_loop_of_inverse {a b : Type} (f : a → Option b) (g : b → a)
    (hfg : ∀ x, f (g x) = some x) :
    ∀ (l : List b) (acc : List b),
      List.mapM.loop f (l.map g) acc = some (acc.reverse ++ l) := by
  intro l
  induction l with
  | nil => intro acc; simp [List.mapM.loop]
  | cons x xs ih =>
    intro acc
    simp only [List.map_cons, List.mapM.loop, hfg, Option.bind_eq_bind, Option.some_bind, ih]
    simp

theorem mapM_loop_nil_of_inverse {a b : Type} (f : a → Option b) (g : b → a)
    (hfg : ∀ x, f (g x) = some x) (l : List b) :
    List.mapM.loop f (l.map g) [] = some l := by
  simpa using mapM_loop_of_inverse f g hfg l []

theorem mapM_decodeBlock (blocks : List Block) :
    (blocks.map encodeBlock).mapM decodeBlock = some blocks := by
  have := mapM_loop_of_inverse decodeBlock encodeBlock decodeBlock_encodeBlock blocks []
  simpa [List.mapM] using this

theorem decodeMsg_encodeMsg (m : Msg) : decodeMsg (encodeMsg m) = some m := by
  rcases m with ⟨uuid, parent, sender, content, text, created⟩
  rcases content with _ | blocks
  · unfold encodeMsg decodeMsg
    simp [jGet, asStr, asOptStr_encodeOptStr]
  · unfold encodeMsg decodeMsg
    simp [jGet, asStr, asOptStr_encodeOptStr, mapM_decodeBlock]
    rw [mapM_loop_nil_of_inverse decodeBlock encodeBlock decodeBlock_encodeBlock blocks]

theorem mapM_decodeMsg (msgs : List Msg) :
    (msgs.map encodeMsg).mapM decodeMsg = some msgs := by
  have := mapM_loop_of_inverse decodeMsg encodeMsg decodeMsg_encodeMsg msgs []
  simpa [List.mapM] using this

theorem decodeRecord_encodeRecord (d : ConvRecord) :
    decodeRecord (encodeRecord d) = some d := by
  rcases d with ⟨uuid, name, summary, model, created, updated, msgs, leaf⟩
  rcases msgs with _ | msgs
  · unfold encodeRecord decodeRecord
    simp [jGet, asStr, asNum, asOptStr_encodeOptStr]
  · unfold encodeRecord decodeRecord
    simp [jGet, asStr, asNum, asOptStr_encodeOptStr, mapM_decodeMsg]
    rw [mapM_loop_nil_of_inverse decodeMsg encodeMsg decodeMsg_encodeMsg msgs]

/-- The JSON encoding path of the exportConversation handler: the model
is inferred in place on the record, which is then serialized whole.
Serialization is modelled at the JSON-value level; JSON.stringify and
JSON.parse being mutually inverse on such values is a property of the JS
builtins, not of this repository. -/
def exportJsonValue (data : ConvRecord) : Json :=
  encodeRecord { data with model := some (inferModel data) }

/-- C6: parsing the JSON export reproduces the original record except
that the model field holds the inferred model, applied in place before
serialization; no other field is modified. -/
theorem json_export_roundtrip (data : ConvRecord) :
    decodeRecord (exportJsonValue data) =
      some { data with model := some (inferModel data) } :=
  decodeRecord_encodeRecord _

/-- The value the cancellation flag is observed to have at the k-th
check; checks happen at each batch start and once after the loop, and the
flag, set once by the user, reads true from its first observation on
(cancelAt is the index of that first observation). -/
def flagAt (cancelAt : Option Nat) (k : Nat) : Bool :=
  match cancelAt with
  | none => false
  | some j => decide (j ≤ k)

/-- The mutable progress of exportAllFiltered, plus the list of
conversation uuids for which a fetch was issued (a modelling aid for the
cancellation claim). -/
structure BatchState where
  completed : Nat
  failed : Nat
  failedConversations : List String
  files : List (String × String)
  fetched : List String
deriving DecidableEq, Repr

/-- The initial progress state. -/
def initBatchState : BatchState := ⟨0, 0, [], [], []⟩

/-- The per-conversation rendering of exportAllFiltered: infer the model
in place, render in the chosen format and key the zip entry by the
sanitized conversation name. -/
def renderEntry (format : String) (includeMetadata : Bool) (conv : Conv)
    (data : ConvRecord) : String × String :=
  let dataInferred := { data with model := some (inferModel data) }
  let safeName := sanitizeFilename conv.name
  if format = "markdown" then (safeName ++ ".md", convertToMarkdown dataInferred includeMetadata)
  else if format = "text" then (safeName ++ ".txt", convertToText dataInferred includeMetadata)
  else (safeName ++ ".json", jsonStringify (encodeRecord dataInferred))

/-- One slot of a batch: fetch the conversation (none models a network
error or a non-success response), then store the rendered file on
success, or increment the failure counter and record the name on
failure; the failure is caught inside the slot and never escapes.
Completion order inside a batch is unspecified in JS; the model
linearizes each batch in list order, which no claim distinguishes. -/
def processConv (fetchFn : Conv → Option ConvRecord) (format : String)
    (includeMetadata : Bool) (st : BatchState) (conv : Conv) : BatchState :=
  match fetchFn conv with
  | none =>
    { st with failed := st.failed + 1,
              failedConversations := st.failedConversations ++ [conv.name],
              fetched := st.fetched ++ [conv.uuid] }
  | some data =>
    { st with completed := st.completed + 1,
              files := st.files ++ [renderEntry format includeMetadata conv data],
              fetched := st.fetched ++ [conv.uuid] }

/-- The batch loop of exportAllFiltered: check the cancellation flag at
each batch start (break when set), process up to three conversations
concurrently (the whole batch settles before the next check), and read
the flag once more when the loop ends.  Returns the final state and
whether the flag was ever read true. -/
def exportBatches (fetchFn : Conv → Option ConvRecord) (format : String)
    (includeMetadata : Bool) (cancelAt : Option Nat) :
    List Conv → Nat → BatchState → BatchState × Bool
  | [], b, st => (st, flagAt cancelAt b)
  | c :: cs, b, st =>
    if flagAt cancelAt b then (st, true)
    else
      exportBatches fetchFn format includeMetadata cancelAt (cs.drop 2) (b + 1)
        ((List.take 3 (c :: cs)).foldl (processConv fetchFn format includeMetadata) st)
termination_by l _ _ => l.length
decreasing_by simp; omega

/-- The export_summary.json object of exportAllFiltered. -/
def summaryJson (now : String) (total completed failed : Nat)
    (failedConversations : List String) (format : String)
    (includeMetadata : Bool) : Json :=
  Json.obj [("export_date", Json.str now),
            ("total_conversations", Json.num total),
            ("successful_exports", Json.num completed),
            ("failed_exports", Json.num failed),
            ("failed_conversations", Json.arr (failedConversations.map Json.str)),
            ("format", Json.str format),
            ("include_metadata", Json.bool includeMetadata)]

/-- exportAllFiltered from the manager page: run the batch loop from
check index zero, then either discard everything (cancelled: no archive)
or append export_summary.json and produce the archive.  The now argument
models the wall clock read by new Date().toISOString(). -/
def exportAllFiltered (fetchFn : Conv → Option ConvRecord) (format : String)
    (includeMetadata : Bool) (cancelAt : Option Nat) (now : String)
    (convs : List Conv) : BatchState × Option (List (String × String)) :=
  match exportBatches fetchFn format includeMetadata cancelAt convs 0 initBatchState with
  | (st, true) => (st, none)
  | (st, false) =>
    (st, some (st.files ++
      [("export_summary.json",
        jsonStringify (summaryJson now convs.length st.completed st.failed
          st.failedConversations format includeMetadata))]))

/-- The number of batch starts for a given conversation count (ceiling of
thirds). -/
def numBatches (n : Nat) : Nat := (n + 2) / 3

theorem foldl_processConv (fetchFn : Conv → Option ConvRecord) (format : String)
    (includeMetadata : Bool) :
    ∀ (convs : List Conv) (st : BatchState),
      convs.foldl (processConv fetchFn format includeMetadata) st =
        ⟨st.completed + (convs.filter (fun c => (fetchFn c).isSome)).length,
         st.failed + (convs.filter (fun c => (fetchFn c).isNone)).length,
         st.failedConversations ++ (convs.filter (fun c => (fetchFn c).isNone)).map (fun c => c.name),
         st.files ++ convs.filterMap (fun c =>
           (fetchFn c).map (fun d => renderEntry format includeMetadata c d)),
         st.fetched ++ convs.map (fun c => c.uuid)⟩ := by
  intro convs
  induction convs with
  | nil => intro st; cases st; simp
  | cons c cs ih =>
    intro st
    rw [List.foldl_cons, ih]
    rcases hf : fetchFn c with _ | d
    · simp [processConv, hf, List.filter_cons, List.filterMap_cons, List.append_assoc]
      omega
    · simp [processConv, hf, List.filter_cons, List.filterMap_cons, List.append_assoc]
      omega

theorem exportBatches_none (fetchFn : Conv → Option ConvRecord) (format : String)
    (includeMetadata : Bool) :
    ∀ (n : Nat) (convs : List Conv), convs.length ≤ n → ∀ (b : Nat) (st : BatchState),
      exportBatches fetchFn format includeMetadata none convs b st =
        (convs.foldl (processConv fetchFn format includeMetadata) st, false) := by
  intro n
  induction n with
  | zero =>
    intro convs h b st
    have hnil : convs = [] := List.eq_nil_of_length_eq_zero (by omega)
    subst hnil
    rw [exportBatches]
    rfl
  | succ n ih =>
    intro convs h b st
    match convs with
    | [] =>
      rw [exportBatches]
      rfl
    | c :: cs =>
      rw [exportBatches]
      have hflag : flagAt none b = false := rfl
      rw [hflag]
      simp only [Bool.false_eq_true, if_false]
      rw [ih (cs.drop 2) (by simp at h ⊢; omega) (b + 1)]
      have hsplit : (c :: cs).foldl (processConv fetchFn format includeMetadata) st =
          (cs.drop 2).foldl (processConv fetchFn format includeMetadata)
            ((List.take 3 (c :: cs)).foldl (processConv fetchFn format includeMetadata) st) := by
        conv_lhs => rw [← List.take_append_drop 3 (c :: cs)]
        rw [List.foldl_append]
        rfl
      rw [hsplit]

theorem exportBatches_cancel (fetchFn : Conv → Option ConvRecord) (format : String)
    (includeMetadata : Bool) :
    ∀ (n : Nat) (convs : List Conv), convs.length ≤ n → ∀ (j b : Nat) (st : BatchState),
      b ≤ j → j ≤ b + numBatches convs.length →
      exportBatches fetchFn format includeMetadata (some j) convs b st =
        ((convs.take (3 * (j - b))).foldl (processConv fetchFn format includeMetadata) st, true) := by
  intro n
  induction n with
  | zero =>
    intro convs h j b st hbj hjb
    have hnil : convs = [] := List.eq_nil_of_length_eq_zero (by omega)
    subst hnil
    have hjb0 : j = b := by
      simp [numBatches] at hjb
      omega
    subst hjb0
    rw [exportBatches]
    simp [flagAt]
  | succ n ih =>
    intro convs h j b st hbj hjb
    match convs with
    | [] =>
      have hjb0 : j = b := by
        simp [numBatches] at hjb
        omega
      subst hjb0
      rw [exportBatches]
      simp [flagAt]
    | c :: cs =>
      rw [exportBatches]
      by_cases hstop : j ≤ b
      · have hjb0 : j = b := by omega
        subst hjb0
        simp [flagAt]
      · have hflag : flagAt (some j) b = false := by
          simp [flagAt]
          omega
        rw [hflag]
        simp only [Bool.false_eq_true, if_false]
        have hlen : (cs.drop 2).length ≤ n := by
          simp at h ⊢
          omega
        have hnb : j ≤ (b + 1) + numBatches (cs.drop 2).length := by
          simp [numBatches] at hjb ⊢
          omega
        rw [ih (cs.drop 2) hlen j (b + 1) _ (by omega) hnb]
        have htake : (c :: cs).take (3 * (j - b)) =
            List.take 3 (c :: cs) ++ ((c :: cs).drop 3).take (3 * (j - (b + 1))) := by
          have h3 : 3 * (j - b) = 3 + 3 * (j - (b + 1)) := by omega
          rw [h3, List.take_add]
        rw [htake, List.foldl_append]
        rfl

theorem exportAllFiltered_none_spec (fetchFn : Conv → Option ConvRecord) (format : String)
    (includeMetadata : Bool) (now : String) (convs : List Conv) :
    exportAllFiltered fetchFn format includeMetadata none now convs =
      (⟨(convs.filter (fun c => (fetchFn c).isSome)).length,
        (convs.filter (fun c => (fetchFn c).isNone)).length,
        (convs.filter (fun c => (fetchFn c).isNone)).map (fun c => c.name),
        convs.filterMap (fun c =>
          (fetchFn c).map (fun d => renderEntry format includeMetadata c d)),
        convs.map (fun c => c.uuid)⟩,
       some ((convs.filterMap (fun c =>
           (fetchFn c).map (fun d => renderEntry format includeMetadata c d))) ++
         [("export_summary.json",
           jsonStringify (summaryJson now convs.length
             (convs.filter (fun c => (fetchFn c).isSome)).length
             (convs.filter (fun c => (fetchFn c).isNone)).length
             ((convs.filter (fun c => (fetchFn c).isNone)).map (fun c => c.name))
             format includeMetadata))])) := by
  unfold exportAllFiltered
  rw [exportBatches_none fetchFn format includeMetadata convs.length convs le_rfl 0 initBatchState]
  rw [foldl_processConv]
  simp [initBatchState]

/-- C4: with no cancellation, a batch export attempts every input
conversation exactly once and always completes: each per-conversation
fetch failure is caught, counted, and the conversation's name appended to
the failure list without aborting the batch or the job, and the produced
archive holds every successful rendered output followed by an
export_summary.json entry recording the export date, totals, encoding and
the failed names. -/
theorem exportAllFiltered_partial_failure (fetchFn : Conv → Option ConvRecord)
    (format : String) (includeMetadata : Bool) (now : String) (convs : List Conv) :
    (exportAllFiltered fetchFn format includeMetadata none now convs).1.fetched =
        convs.map (fun c => c.uuid) ∧
    (exportAllFiltered fetchFn format includeMetadata none now convs).1.completed =
        (convs.filter (fun c => (fetchFn c).isSome)).length ∧
    (exportAllFiltered fetchFn format includeMetadata none now convs).1.failed =
        (convs.filter (fun c => (fetchFn c).isNone)).length ∧
    (exportAllFiltered fetchFn format includeMetadata none now convs).1.failedConversations =
        (convs.filter (fun c => (fetchFn c).isNone)).map (fun c => c.name) ∧
    (exportAllFiltered fetchFn format includeMetadata none now convs).2 =
      some ((convs.filterMap (fun c =>
          (fetchFn c).map (fun d => renderEntry format includeMetadata c d))) ++
        [("export_summary.json",
          jsonStringify (summaryJson now convs.length
            (convs.filter (fun c => (fetchFn c).isSome)).length
            (convs.filter (fun c => (fetchFn c).isNone)).length
            ((convs.filter (fun c => (fetchFn c).isNone)).map (fun c => c.name))
            format includeMetadata))]) := by
  rw [exportAllFiltered_none_spec]
  exact ⟨rfl, rfl, rfl, rfl, rfl⟩

/-- C5: cancellation is only observed at batch boundaries: if the flag is
first read true at check j (at or before the post-loop check), then the
conversations of batches before j were all fetched, no conversation of
any later batch is ever fetched, and no archive is produced (the rendered
outputs are discarded). -/
theorem exportAllFiltered_cancellation (fetchFn : Conv → Option ConvRecord)
    (format : String) (includeMetadata : Bool) (now : String) (convs : List Conv)
    (j : Nat) (hj : j ≤ numBatches convs.length) :
    (exportAllFiltered fetchFn format includeMetadata (some j) now convs).2 = none ∧
    (exportAllFiltered fetchFn format includeMetadata (some j) now convs).1.fetched =
      (convs.take (3 * j)).map (fun c => c.uuid) := by
  unfold exportAllFiltered
  rw [exportBatches_cancel fetchFn format includeMetadata convs.length convs le_rfl j 0
    initBatchState (by omega) (by simpa using hj)]
  rw [foldl_processConv]
  simp [initBatchState]

/-- C5 witness: cancelling a seven-conversation export at the start of
the second batch fetches exactly the first three conversations and
produces no archive. -/
theorem exportAllFiltered_cancellation_witness :
    (exportAllFiltered (fun _ => none) "json" false (some 1) "t"
        [⟨"u1", "n1"⟩, ⟨"u2", "n2"⟩, ⟨"u3", "n3"⟩, ⟨"u4", "n4"⟩,
         ⟨"u5", "n5"⟩, ⟨"u6", "n6"⟩, ⟨"u7", "n7"⟩]).2 = none ∧
    (exportAllFiltered (fun _ => none) "json" false (some 1) "t"
        [⟨"u1", "n1"⟩, ⟨"u2", "n2"⟩, ⟨"u3", "n3"⟩, ⟨"u4", "n4"⟩,
         ⟨"u5", "n5"⟩, ⟨"u6", "n6"⟩, ⟨"u7", "n7"⟩]).1.fetched = ["u1", "u2", "u3"] := by
  have h := exportAllFiltered_cancellation (fun _ => none) "json" false "t"
    [⟨"u1", "n1"⟩, ⟨"u2", "n2"⟩, ⟨"u3", "n3"⟩, ⟨"u4", "n4"⟩,
     ⟨"u5", "n5"⟩, ⟨"u6", "n6"⟩, ⟨"u7", "n7"⟩] 1 (by decide)
  refine ⟨h.1, ?_⟩
  rw [h.2]
  rfl

theorem renderEntry_fst (format : String) (includeMetadata : Bool) (conv : Conv)
    (data : ConvRecord) :
    (renderEntry format includeMetadata conv data).1 =
      sanitizeFilename conv.name ++ formatExt format := by
  unfold renderEntry formatExt
  split_ifs <;> rfl

/-- C8 (amended): the manager-page single-conversation export is named
claude-<name-or-id>.<ext>, while the content-script message handler names
its single export claude-conversation-<name-or-id>.<ext>; every batch
archive entry is keyed by the conversation name with each of the
characters < > : " / \ | ? * replaced by an underscore, followed by the
format extension; and the summary entry is always named
export_summary.json. -/
theorem export_file_naming :
    (∀ name id format : String,
      pageExportFilename name id format =
        "claude-" ++ (if name ≠ "" then name else id) ++ formatExt format) ∧
    (∀ (data : ConvRecord) (id format : String),
      handlerExportFilename data id format =
        "claude-conversation-" ++
          (if strTruthy data.name then data.name.getD "" else id) ++ formatExt format) ∧
    (∀ s : String, (sanitizeFilename s).data =
      s.data.map (fun c => if c ∈ illegalFilenameChars then '_' else c)) ∧
    sanitizeFilename "a<b>c:d\"e/f\\g|h?i*j" = "a_b_c_d_e_f_g_h_i_j" ∧
    (∀ (fetchFn : Conv → Option ConvRecord) (format : String) (includeMetadata : Bool)
        (now : String) (convs : List Conv) (fl : List (String × String)),
      (exportAllFiltered fetchFn format includeMetadata none now convs).2 = some fl →
      fl.map Prod.fst =
        convs.filterMap (fun c => (fetchFn c).map (fun _ =>
          sanitizeFilename c.name ++ formatExt format)) ++ ["export_summary.json"]) := by
  refine ⟨fun _ _ _ => rfl, fun _ _ _ => rfl, fun _ => rfl, by decide, ?_⟩
  intro fetchFn format includeMetadata now convs fl hfl
  rw [exportAllFiltered_none_spec] at hfl
  simp only [Option.some_inj] at hfl
  subst hfl
  simp only [List.map_append, List.map_filterMap, Option.map_map, Function.comp_def,
    renderEntry_fst, List.map_cons, List.map_nil]

/-- C8 witness: a batch archive over one conversation whose name holds a
slash is keyed by the underscored name, and the summary entry closes the
archive; the page export of a named conversation is claude-name.txt. -/
theorem export_file_naming_witness :
    ([("export_summary.json",
        jsonStringify (summaryJson "t" 1 0 1 ["n/a"] "json" false))].map Prod.fst =
      [(⟨"u", "n/a"⟩ : Conv)].filterMap (fun c =>
        ((fun _ => (none : Option ConvRecord)) c).map (fun _ =>
          sanitizeFilename c.name ++ formatExt "json")) ++ ["export_summary.json"]) ∧
    pageExportFilename "x" "i" "text" =
      "claude-" ++ (if "x" ≠ "" then "x" else "i") ++ formatExt "text" :=
  ⟨export_file_naming.2.2.2.2 (fun _ => none) "json" false "t" [⟨"u", "n/a"⟩]
      [("export_summary.json", jsonStringify (summaryJson "t" 1 0 1 ["n/a"] "json" false))]
      (by rw [exportAllFiltered_none_spec]; rfl),
   export_file_naming.1 "x" "i" "text"⟩

/-- C8 fails as stated for the content-script single export: with a
conversation named x exported as markdown, the handler produces
claude-conversation-x.md, not claude-x.md. -/
theorem export_file_naming_counterexample :
    handlerExportFilename ⟨"id0", some "x", none, none, 0, 0, none, none⟩ "id0" "markdown" =
      "claude-conversation-x.md" ∧
    handlerExportFilename ⟨"id0", some "x", none, none, 0, 0, none, none⟩ "id0" "markdown" ≠
      "claude-x.md" := by
  refine ⟨by decide, by decide⟩
